import Mathlib

/-!
Shallow embedding of `salestax-srv/lrucache/lrucache.go`: a fixed-capacity,
LRU-evicting cache from string keys to float64 values, with an optional
loader invoked on cache miss (`FastRateLookup`).

Modelling conventions:
* `container/list` (front = most recently used, back = least recently used)
  is modelled as a Lean `List CacheItem`, head = front.
* The Go map `cache map[interface{}]*list.Element` stores, for each present
  key, a pointer to the list node holding that key's `CacheItem`.  The map's
  key set is modelled as a `List String`; dereferencing the stored node
  pointer is modelled by locating the (unique, under the cache's invariant)
  ledger entry with that key.
* `float64` is modelled opaquely: the cache performs no arithmetic on values
  and the only float constant in the source is `math.NaN()`, so a value is
  either the distinguished `nan` or an opaque numeric payload.
* Go `error` results are `Option GoError` (`none` = nil error); values built
  by `errors.New` are identified by their message string.
-/

namespace LruCache

/-- Go `float64`, opaque to the cache: `nan` models `math.NaN()`, `num`
carries an opaque payload standing for any other double. -/
inductive F64 where
  | nan : F64
  | num : Int → F64
deriving DecidableEq

/-- A Go `error` value created by `errors.New`, identified by its message.
A nil Go error is `(none : Option GoError)`. -/
structure GoError where
  msg : String
deriving DecidableEq

/-- `errors.New("Key not found")` in `Get`. -/
def keyNotFoundErr : GoError := ⟨"Key not found"⟩

/-- `errors.New("Using provided data acquistion routine")` in `FastRateLookup`. -/
def loaderFailedErr : GoError := ⟨"Using provided data acquistion routine"⟩

/-- `CacheItem` holds the key/value pairs in the LRUCache. -/
structure CacheItem where
  key : String
  value : F64
deriving DecidableEq

/-- The state of an `LRUCache`: capacity `size`, the recency list (head =
front = most recently used) and the key set of the index map `cache`. -/
structure LRUCache where
  size : Int
  list : List CacheItem
  cache : List String
deriving DecidableEq

/-- `LoaderFunc` matches the signature of `sales_tax_lookup`; a nil function
pointer is `none`. -/
def LoaderFunc := String → F64 × Option GoError

/-- The predicate used to resolve the node pointer stored in the index map:
the ledger entry holding the given key. -/
def keyMatch (key : String) : CacheItem → Bool := fun it => it.key == key

/-- `New` returns an initialized LRUCache; it panics (modelled as `none`)
when `sz <= 0`. -/
def New (sz : Int) : Option LRUCache :=
  if sz ≤ 0 then none
  else some { size := sz, list := [], cache := [] }

/-- Go map assignment `c.cache[key] = elem` restricted to the key set: a map
assignment never duplicates a key. -/
def mapInsertKey (ks : List String) (k : String) : List String :=
  if ks.contains k then ks else k :: ks

/-- `prune` removes the `n` least recently used entries: repeatedly take the
list's back element (stopping early when the list is empty), remove it from
the list and delete its key from the index map.  The Go function returns an
always-nil error, elided here. -/
def prune (c : LRUCache) (n : Nat) : LRUCache :=
  match n with
  | 0 => c
  | Nat.succ m =>
    match c.list.getLast? with
    | none => c
    | some item =>
      prune { c with list := c.list.dropLast, cache := c.cache.erase item.key } m

/-- `Get` tests whether a key exists in the cache.  On a hit it moves the
node to the front of the list and returns (a pointer to) the `CacheItem`
with a nil error; on a miss it returns nil and `errors.New("Key not found")`.
Result: (updated state, returned `*CacheItem`, returned error).  The middle
`none` branch is unreachable: the index map only ever holds pointers to live
list nodes carrying the mapped key. -/
def Get (c : LRUCache) (key : String) :
    LRUCache × Option CacheItem × Option GoError :=
  if c.cache.contains key then
    match c.list.find? (keyMatch key) with
    | some item =>
      ({ c with list := item :: c.list.eraseP (keyMatch key) }, some item, none)
    | none => (c, none, some keyNotFoundErr)
  else
    (c, none, some keyNotFoundErr)

/-- `Insert` inserts a key/value pair.  If the key exists, the node is moved
to the front and its item's value is overwritten in place; otherwise, when
the list is at capacity (`c.list.Len() >= c.size`) one entry is pruned, and
the new item is pushed to the front and recorded in the index map.  The Go
function returns an always-nil error.  As in `Get`, the middle `none` branch
is unreachable under the cache's invariant. -/
def Insert (c : LRUCache) (key : String) (value : F64) :
    LRUCache × Option GoError :=
  if c.cache.contains key then
    match c.list.find? (keyMatch key) with
    | some item =>
      ({ c with
          list := { item with value := value } :: c.list.eraseP (keyMatch key) },
        none)
    | none => (c, none)
  else
    let c1 := if c.size ≤ (c.list.length : Int) then prune c 1 else c
    ({ c1 with
        list := { key := key, value := value } :: c1.list,
        cache := mapInsertKey c1.cache key }, none)

/-- `FastRateLookup`: try `Get`; on a hit assign the hit value to the outer
`taxRate` variable and fall through to the final `return taxRate, nil`.  On
a miss with a nil loader, return `(math.NaN(), err)` with `Get`'s error.  On
a miss with a loader, `taxRate, err := loader(key)` declares NEW variables
shadowing the outer `taxRate`/`err`; a loader error returns NaN with the
distinct loader-failure error; otherwise the loaded value is inserted, the
second `if err != nil` re-checks the already-nil inner `err` (dead code),
and the final `return taxRate, nil` returns the OUTER `taxRate`, which is
still `math.NaN()`. -/
def FastRateLookup (c : LRUCache) (key : String)
    (loader : Option LoaderFunc) : LRUCache × F64 × Option GoError :=
  let taxRate : F64 := F64.nan
  let res := Get c key
  match res.2.2 with
  | none =>
    let taxRate := match res.2.1 with
      | some item => item.value
      | none => taxRate
    (res.1, taxRate, none)
  | some err =>
    match loader with
    | some f =>
      let lres := f key
      match lres.2 with
      | some _ => (res.1, F64.nan, some loaderFailedErr)
      | none => ((Insert res.1 key lres.1).1, taxRate, none)
    | none => (res.1, F64.nan, some err)

/-- The keys of the recency list, front first. -/
def listKeys (c : LRUCache) : List String := c.list.map CacheItem.key

/-- Well-formedness of a cache state, maintained by every operation:
positive capacity, no duplicate keys in list or map, the map's key set and
the list's key set coincide, and the list is within capacity. -/
def WF (c : LRUCache) : Prop :=
  1 ≤ c.size ∧
  (listKeys c).Nodup ∧
  c.cache.Nodup ∧
  (∀ k ∈ c.cache, k ∈ listKeys c) ∧
  (∀ k ∈ listKeys c, k ∈ c.cache) ∧
  (c.list.length : Int) ≤ c.size

instance : DecidablePred WF := fun c => by
  unfold WF listKeys
  infer_instance

/-- Sequentially insert a list of key/value pairs. -/
def insertAll (c : LRUCache) (ps : List (String × F64)) : LRUCache :=
  ps.foldl (fun s p => (Insert s p.1 p.2).1) c

/-- The cache states reachable from construction through the public API. -/
inductive Reachable : LRUCache → Prop where
  | new (sz : Int) (c : LRUCache) : New sz = some c → Reachable c
  | insert (c : LRUCache) (k : String) (v : F64) :
      Reachable c → Reachable (Insert c k v).1
  | get (c : LRUCache) (k : String) : Reachable c → Reachable (Get c k).1
  | fast (c : LRUCache) (k : String) (loader : Option LoaderFunc) :
      Reachable c → Reachable (FastRateLookup c k loader).1

/-! ### Supporting lemmas -/

/-- Moving the first entry matched by `find?` to the front permutes the list. -/
lemma find?_perm_eraseP {α : Type _} {p : α → Bool} {l : List α} {a : α}
    (h : l.find? p = some a) : l.Perm (a :: l.eraseP p) := by
  have ha := List.mem_of_find?_eq_some h
  have hpa := List.find?_some h
  obtain ⟨a', l₁, l₂, h₁, hpa', hl, he⟩ := List.exists_of_eraseP ha hpa
  have hfind : l.find? p = some a' := by
    rw [hl, List.find?_append, List.find?_eq_none.2 h₁, List.find?_cons_of_pos _ hpa']
    rfl
  have haa : a = a' := by
    rw [h] at hfind
    exact Option.some.inj hfind
  subst haa
  rw [he, hl]
  exact List.perm_middle

lemma mem_of_contains {ks : List String} {k : String}
    (h : ks.contains k = true) : k ∈ ks := List.elem_iff.mp h

lemma not_mem_of_contains_eq_false {ks : List String} {k : String}
    (h : ks.contains k = false) : k ∉ ks := by
  intro hm
  have h' : ks.elem k = false := h
  rw [List.elem_iff.mpr hm] at h'
  cases h'

/-- A key present among the ledger keys is found by `find?` and the found
entry carries that key. -/
lemma find?_keyMatch {c : LRUCache} {k : String} (hm : k ∈ listKeys c) :
    ∃ it, c.list.find? (keyMatch k) = some it ∧ it.key = k := by
  simp only [listKeys, List.mem_map] at hm
  obtain ⟨it, hit, hk⟩ := hm
  have hsome : (c.list.find? (keyMatch k)).isSome :=
    List.find?_isSome.2 ⟨it, hit, by simp [keyMatch, hk]⟩
  obtain ⟨it', hit'⟩ := Option.isSome_iff_exists.mp hsome
  refine ⟨it', hit', ?_⟩
  have := List.find?_some hit'
  simpa [keyMatch] using this

/-- Replacing the ledger by one with the same keys up to permutation
preserves well-formedness. -/
lemma WF_set_list {c : LRUCache} {l' : List CacheItem} (hwf : WF c)
    (hperm : (l'.map CacheItem.key).Perm (listKeys c)) :
    WF { c with list := l' } := by
  obtain ⟨h1, h2, h3, h4, h5, h6⟩ := hwf
  refine ⟨h1, ?_, h3, ?_, ?_, ?_⟩
  · simpa [listKeys] using hperm.nodup_iff.mpr h2
  · intro k hk
    simpa [listKeys] using hperm.mem_iff.mpr (h4 k hk)
  · intro k hk
    exact h5 k (hperm.mem_iff.mp (by simpa [listKeys] using hk))
  · have hlen : l'.length = c.list.length := by
      have := hperm.length_eq
      simpa [listKeys] using this
    show (l'.length : Int) ≤ c.size
    rw [hlen]
    exact h6

lemma prune_one_nil {c : LRUCache} (h : c.list = []) : prune c 1 = c := by
  simp [prune, h]

lemma prune_one_some {c : LRUCache} {item : CacheItem}
    (h : c.list.getLast? = some item) :
    prune c 1 = { c with list := c.list.dropLast, cache := c.cache.erase item.key } := by
  simp [prune, h]

lemma prune_size (c : LRUCache) (n : Nat) : (prune c n).size = c.size := by
  induction n generalizing c with
  | zero => rfl
  | succ m ih =>
    unfold prune
    cases h : c.list.getLast? with
    | none => rfl
    | some item => exact ih _

lemma prune_one_cache_subset (c : LRUCache) : (prune c 1).cache ⊆ c.cache := by
  cases h : c.list.getLast? with
  | none =>
    have : c.list = [] := by
      cases hl : c.list with
      | nil => rfl
      | cons a as => rw [hl] at h; simp [List.getLast?_eq_some_iff] at h
    rw [prune_one_nil this]
    exact fun x hx => hx
  | some item =>
    rw [prune_one_some h]
    exact List.erase_subset _ _

/-- `prune 1` on a nonempty ledger drops the back entry from the ledger and
its key from the index. -/
lemma prune_one_concat {c : LRUCache} {ys : List CacheItem} {item : CacheItem}
    (h : c.list = ys ++ [item]) :
    prune c 1 = { c with list := ys, cache := c.cache.erase item.key } := by
  have hlast : c.list.getLast? = some item := List.getLast?_eq_some_iff.mpr ⟨ys, h⟩
  rw [prune_one_some hlast, h]
  simp

lemma WF_prune_one {c : LRUCache} (hwf : WF c) : WF (prune c 1) := by
  obtain ⟨h1, h2, h3, h4, h5, h6⟩ := hwf
  cases hl : c.list.getLast? with
  | none =>
    have : c.list = [] := by
      cases hc : c.list with
      | nil => rfl
      | cons a as => rw [hc] at hl; simp [List.getLast?_eq_some_iff] at hl
    rw [prune_one_nil this]
    exact ⟨h1, h2, h3, h4, h5, h6⟩
  | some item =>
    obtain ⟨ys, hys⟩ := List.getLast?_eq_some_iff.mp hl
    rw [prune_one_concat hys]
    have hkeys : listKeys c = ys.map CacheItem.key ++ [item.key] := by
      simp [listKeys, hys]
    rw [hkeys] at h2 h4 h5
    obtain ⟨h2a, h2b, h2c⟩ := List.nodup_append.mp h2
    have hni : item.key ∉ ys.map CacheItem.key := by
      intro hmem
      exact h2c hmem (by simp)
    refine ⟨h1, ?_, h3.erase _, ?_, ?_, ?_⟩
    · simpa [listKeys] using h2a
    · intro k hk
      have hk' := (List.Nodup.mem_erase_iff h3).mp hk
      have := h4 k hk'.2
      simp only [List.mem_append, List.mem_singleton] at this
      rcases this with h | h
      · simpa [listKeys] using h
      · exact absurd h hk'.1
    · intro k hk
      simp only [listKeys, List.map_map] at hk
      have hk' : k ∈ ys.map CacheItem.key := by simpa [listKeys] using hk
      have hne : k ≠ item.key := by
        intro he
        exact hni (he ▸ hk')
      exact (List.Nodup.mem_erase_iff h3).mpr ⟨hne, h5 k (by simp [hk'])⟩
    · show ((ys.length : Int)) ≤ c.size
      have : c.list.length = ys.length + 1 := by simp [hys]
      omega

lemma WF_new {sz : Int} {c : LRUCache} (h : New sz = some c) : WF c := by
  unfold New at h
  split at h
  · cases h
  · rename_i hsz
    cases h
    refine ⟨?_, ?_, ?_, ?_, ?_, ?_⟩
    · show (1 : Int) ≤ sz
      omega
    · simp [listKeys]
    · simp
    · intro k hk
      simp at hk
    · intro k hk
      simp [listKeys] at hk
    · show ((0 : Nat) : Int) ≤ sz
      omega

lemma WF_get {c : LRUCache} (hwf : WF c) (k : String) : WF (Get c k).1 := by
  cases hc : c.cache.contains k with
  | false =>
    have hm : k ∉ c.cache := not_mem_of_contains_eq_false hc
    simpa [Get, hm] using hwf
  | true =>
    have hm : k ∈ c.cache := mem_of_contains hc
    cases hf : c.list.find? (keyMatch k) with
    | none => simpa [Get, hm, hf] using hwf
    | some it =>
      simp only [Get, hc, hm, hf, if_true]
      apply WF_set_list hwf
      have hperm := (find?_perm_eraseP hf).map CacheItem.key
      simpa [listKeys] using hperm.symm

lemma WF_insert {c : LRUCache} (hwf : WF c) (k : String) (v : F64) :
    WF (Insert c k v).1 := by
  cases hc : c.cache.contains k with
  | true =>
    have hm : k ∈ c.cache := mem_of_contains hc
    cases hf : c.list.find? (keyMatch k) with
    | none => simpa [Insert, hm, hf] using hwf
    | some it =>
      simp only [Insert, hc, hm, hf, if_true]
      apply WF_set_list hwf
      have hperm := (find?_perm_eraseP hf).map CacheItem.key
      simpa [listKeys] using hperm.symm
  | false =>
    have hkc : k ∉ c.cache := not_mem_of_contains_eq_false hc
    obtain ⟨h1, h2, h3, h4, h5, h6⟩ := hwf
    by_cases hfull : c.size ≤ (c.list.length : Int)
    · -- at capacity: one entry is pruned from the back before pushing
      have hlen : (c.list.length : Int) = c.size := le_antisymm h6 hfull
      have hne : c.list ≠ [] := by
        intro he
        rw [he] at hlen
        simp at hlen
        omega
      obtain ⟨ys, item, hys⟩ := (List.eq_nil_or_concat c.list).resolve_left hne
      rw [List.concat_eq_append] at hys
      have hprune := prune_one_concat hys
      have hwf1 : WF (prune c 1) := WF_prune_one ⟨h1, h2, h3, h4, h5, h6⟩
      obtain ⟨g1, g2, g3, g4, g5, g6⟩ := hwf1
      have hkc1 : k ∉ (prune c 1).cache := fun hm => hkc (prune_one_cache_subset c hm)
      have hkl1 : k ∉ listKeys (prune c 1) := fun hm => hkc1 (g5 k hm)
      have hcontains1 : (prune c 1).cache.contains k = false := by
        cases hcc : (prune c 1).cache.contains k with
        | false => rfl
        | true => exact absurd (mem_of_contains hcc) hkc1
      simp only [Insert, mapInsertKey, hc, hcontains1, Bool.false_eq_true,
        if_false, if_pos hfull]
      refine ⟨g1, ?_, ?_, ?_, ?_, ?_⟩
      · show ((k : String) :: listKeys (prune c 1)).Nodup
        exact List.nodup_cons.mpr ⟨hkl1, g2⟩
      · show ((k : String) :: (prune c 1).cache).Nodup
        exact List.nodup_cons.mpr ⟨hkc1, g3⟩
      · intro k' hk'
        simp only [List.mem_cons] at hk'
        rcases hk' with h | h
        · simp [listKeys, h]
        · have := g4 k' h
          simp only [listKeys] at this ⊢
          simp [this]
      · intro k' hk'
        simp only [listKeys, List.map_cons, List.mem_cons] at hk'
        rcases hk' with h | h
        · simp [h]
        · have := g5 k' (by simpa [listKeys] using h)
          simp [this]
      · show (((⟨k, v⟩ : CacheItem) :: (prune c 1).list).length : Int) ≤ (prune c 1).size
        rw [prune_size]
        have hl1 : (prune c 1).list.length = ys.length := by
          rw [hprune]
        have : c.list.length = ys.length + 1 := by simp [hys]
        simp only [List.length_cons, hl1]
        omega
    · -- below capacity: push without pruning
      have hkl : k ∉ listKeys c := fun hm => hkc (h5 k hm)
      simp only [Insert, mapInsertKey, hc, Bool.false_eq_true, if_false,
        if_neg hfull]
      refine ⟨h1, ?_, ?_, ?_, ?_, ?_⟩
      · show ((k : String) :: listKeys c).Nodup
        exact List.nodup_cons.mpr ⟨hkl, h2⟩
      · show ((k : String) :: c.cache).Nodup
        exact List.nodup_cons.mpr ⟨hkc, h3⟩
      · intro k' hk'
        simp only [List.mem_cons] at hk'
        rcases hk' with h | h
        · simp [listKeys, h]
        · have := h4 k' h
          simp only [listKeys] at this ⊢
          simp [this]
      · intro k' hk'
        simp only [listKeys, List.map_cons, List.mem_cons] at hk'
        rcases hk' with h | h
        · simp [h]
        · have := h5 k' (by simpa [listKeys] using h)
          simp [this]
      · show (((⟨k, v⟩ : CacheItem) :: c.list).length : Int) ≤ c.size
        simp only [List.length_cons]
        omega

lemma WF_fastRateLookup {c : LRUCache} (hwf : WF c) (k : String)
    (loader : Option LoaderFunc) : WF (FastRateLookup c k loader).1 := by
  cases h2 : (Get c k).2.2 with
  | none => simpa [FastRateLookup, h2] using WF_get hwf k
  | some e =>
    cases loader with
    | none => simpa [FastRateLookup, h2] using WF_get hwf k
    | some f =>
      cases h3 : (f k).2 with
      | some e2 => simpa [FastRateLookup, h2, h3] using WF_get hwf k
      | none =>
        simpa [FastRateLookup, h2, h3] using WF_insert (WF_get hwf k) k (f k).1

lemma WF_reachable {c : LRUCache} (h : Reachable c) : WF c := by
  induction h with
  | new sz c hnew => exact WF_new hnew
  | insert c k v _ ih => exact WF_insert ih k v
  | get c k _ ih => exact WF_get ih k
  | fast c k loader _ ih => exact WF_fastRateLookup ih k loader

/-- Under well-formedness the index map and the recency list have the same
number of entries. -/
lemma WF_cache_length {c : LRUCache} (hwf : WF c) :
    c.cache.length = c.list.length := by
  obtain ⟨h1, h2, h3, h4, h5, h6⟩ := hwf
  have hsub1 : List.Subperm c.cache (listKeys c) := List.subperm_of_subset h3 h4
  have hsub2 : List.Subperm (listKeys c) c.cache := List.subperm_of_subset h2 h5
  have := Nat.le_antisymm hsub1.length_le hsub2.length_le
  simpa [listKeys] using this

lemma contains_false_of_not_mem {ks : List String} {k : String}
    (h : k ∉ ks) : ks.contains k = false := by
  cases hx : ks.contains k with
  | false => rfl
  | true => exact absurd (mem_of_contains hx) h

lemma Insert_size (c : LRUCache) (k : String) (v : F64) :
    (Insert c k v).1.size = c.size := by
  cases hc : c.cache.contains k with
  | true =>
    have hm : k ∈ c.cache := mem_of_contains hc
    cases hf : c.list.find? (keyMatch k) with
    | none => simp [Insert, hm, hf]
    | some it => simp [Insert, hm, hf]
  | false =>
    have hm : k ∉ c.cache := not_mem_of_contains_eq_false hc
    by_cases hfull : c.size ≤ (c.list.length : Int)
    · simp [Insert, hm, if_pos hfull, prune_size]
    · simp [Insert, hm, if_neg hfull]

lemma Get_size (c : LRUCache) (k : String) : (Get c k).1.size = c.size := by
  cases hc : c.cache.contains k with
  | true =>
    have hm : k ∈ c.cache := mem_of_contains hc
    cases hf : c.list.find? (keyMatch k) with
    | none => simp [Get, hm, hf]
    | some it => simp [Get, hm, hf]
  | false =>
    have hm : k ∉ c.cache := not_mem_of_contains_eq_false hc
    simp [Get, hm]

lemma FastRateLookup_size (c : LRUCache) (k : String)
    (loader : Option LoaderFunc) : (FastRateLookup c k loader).1.size = c.size := by
  cases h2 : (Get c k).2.2 with
  | none => simp [FastRateLookup, h2, Get_size]
  | some e =>
    cases loader with
    | none => simp [FastRateLookup, h2, Get_size]
    | some f =>
      cases h3 : (f k).2 with
      | some e2 => simp [FastRateLookup, h2, h3, Get_size]
      | none => simp [FastRateLookup, h2, h3, Insert_size, Get_size]

lemma insertAll_size (c : LRUCache) (ps : List (String × F64)) :
    (insertAll c ps).size = c.size := by
  induction ps generalizing c with
  | nil => rfl
  | cons p ps ih =>
    show (insertAll (Insert c p.1 p.2).1 ps).size = c.size
    rw [ih, Insert_size]

/-- On a nonempty ledger, `prune 1` drops the back key and shrinks the
ledger by one. -/
lemma prune_one_keys {c : LRUCache} (h : c.list ≠ []) :
    listKeys (prune c 1) = (listKeys c).dropLast ∧
    (prune c 1).list.length + 1 = c.list.length := by
  obtain ⟨ys, item, hys⟩ := (List.eq_nil_or_concat c.list).resolve_left h
  rw [List.concat_eq_append] at hys
  rw [prune_one_concat hys]
  constructor
  · simp [listKeys, hys]
  · simp [hys]

lemma insert_absent_listKeys_full {c : LRUCache} {k : String} (v : F64)
    (hc : c.cache.contains k = false) (hfull : c.size ≤ (c.list.length : Int)) :
    listKeys (Insert c k v).1 = k :: listKeys (prune c 1) := by
  simp [Insert, hc, not_mem_of_contains_eq_false hc, if_pos hfull, listKeys]

lemma insert_absent_listKeys_notfull {c : LRUCache} {k : String} (v : F64)
    (hc : c.cache.contains k = false)
    (hfull : ¬c.size ≤ (c.list.length : Int)) :
    listKeys (Insert c k v).1 = k :: listKeys c := by
  simp [Insert, hc, not_mem_of_contains_eq_false hc, if_neg hfull, listKeys]

lemma insertAll_concat (c : LRUCache) (ps : List (String × F64))
    (p : String × F64) :
    insertAll c (ps ++ [p]) = (Insert (insertAll c ps) p.1 p.2).1 := by
  simp [insertAll]

/-- Inserting pairwise-distinct keys into a fresh cache of capacity `sz`
leaves exactly the last `sz` inserted keys, most recent first. -/
lemma insertAll_empty_keys (sz : Int) (hsz : 1 ≤ sz) :
    ∀ ps : List (String × F64), (ps.map Prod.fst).Nodup →
      WF (insertAll ⟨sz, [], []⟩ ps) ∧
      listKeys (insertAll ⟨sz, [], []⟩ ps) =
        (ps.map Prod.fst).reverse.take sz.toNat := by
  intro ps
  induction ps using List.reverseRecOn with
  | nil =>
    intro _
    refine ⟨?_, ?_⟩
    · have hnew : New sz = some (⟨sz, [], []⟩ : LRUCache) := by
        unfold New
        rw [if_neg (by omega)]
      exact WF_new hnew
    · simp [insertAll, listKeys]
  | append_singleton ps p ih =>
    intro hnd
    rw [List.map_append] at hnd
    obtain ⟨nd1, nd2, disj⟩ := List.nodup_append.mp hnd
    have hp : p.1 ∉ ps.map Prod.fst := fun hm => disj hm (by simp)
    obtain ⟨ihwf, ihkeys⟩ := ih nd1
    have hcsz : (insertAll (⟨sz, [], []⟩ : LRUCache) ps).size = sz :=
      insertAll_size _ _
    set c := insertAll (⟨sz, [], []⟩ : LRUCache) ps with hcdef
    obtain ⟨w1, w2, w3, w4, w5, w6⟩ := ihwf
    have hkl : p.1 ∉ listKeys c := by
      intro hm
      rw [ihkeys] at hm
      exact hp (by simpa using List.take_subset _ _ hm)
    have hkc : p.1 ∉ c.cache := fun hm => hkl (w4 p.1 hm)
    have hb : c.cache.contains p.1 = false := contains_false_of_not_mem hkc
    have hwf2 : WF (insertAll ⟨sz, [], []⟩ (ps ++ [p])) := by
      rw [insertAll_concat]
      exact WF_insert ⟨w1, w2, w3, w4, w5, w6⟩ p.1 p.2
    refine ⟨hwf2, ?_⟩
    rw [insertAll_concat]
    have hrhs : ((ps ++ [p]).map Prod.fst).reverse
        = p.1 :: (ps.map Prod.fst).reverse := by
      simp
    rw [hrhs]
    have hlenkeys : (listKeys c).length = c.list.length := by
      simp [listKeys]
    by_cases hfull : c.size ≤ (c.list.length : Int)
    · -- at capacity: the back key is dropped before the push
      have hclen : c.list.length = sz.toNat := by
        rw [hcsz] at hfull
        omega
      have hne : c.list ≠ [] := by
        intro he
        rw [he] at hclen
        simp at hclen
        omega
      obtain ⟨hpk, _⟩ := prune_one_keys hne
      rw [insert_absent_listKeys_full p.2 hb hfull, hpk, ihkeys]
      obtain ⟨m, hm⟩ : ∃ m, sz.toNat = m + 1 := ⟨sz.toNat - 1, by omega⟩
      have htlen : ((ps.map Prod.fst).reverse.take sz.toNat).length = sz.toNat := by
        rw [← ihkeys, hlenkeys, hclen]
      rw [hm] at htlen ⊢
      rw [List.take_succ_cons, List.dropLast_eq_take, htlen,
        Nat.add_sub_cancel, List.take_take, Nat.min_eq_left (Nat.le_succ m)]
    · -- below capacity: plain push to the front
      have hlt : c.list.length < sz.toNat := by
        rw [hcsz] at hfull
        omega
      have hrevlen : (ps.map Prod.fst).reverse.length < sz.toNat := by
        by_contra hge
        push_neg at hge
        have : (listKeys c).length = sz.toNat := by
          rw [ihkeys, List.length_take]
          omega
        rw [hlenkeys] at this
        omega
      have hrevlen' : ps.length < sz.toNat := by
        simpa using hrevlen
      rw [insert_absent_listKeys_notfull p.2 hb hfull, ihkeys]
      rw [List.take_of_length_le (by omega),
        List.take_of_length_le (by simp; omega)]

/-! ### Claim theorems -/

/-- Claim C1 (refuted by the code): on a miss with a loader that returns
value 5 and a nil error, `FastRateLookup` does insert 5 into the cache under
the key, but returns NaN — not 5 — with a nil error, because the final
`return taxRate, nil` reads the outer `taxRate` variable that the miss
branch shadowed.  This theorem evaluates the code at the failing input. -/
theorem fastRateLookup_miss_returns_nan :
    FastRateLookup ⟨1, [], []⟩ "a" (some fun _ => (F64.num 5, none)) =
      (⟨1, [⟨"a", F64.num 5⟩], ["a"]⟩, F64.nan, none) ∧
    F64.nan ≠ F64.num 5 := by
  exact ⟨rfl, by decide⟩

/-- Claim C2: after every completed operation (`Insert`, `Get`,
`FastRateLookup`) starting from construction, the recency list and the
index map hold equally many entries, and both counts are at most the
capacity fixed at construction. -/
theorem reachable_size_invariant (c : LRUCache) (h : Reachable c) :
    c.list.length = c.cache.length ∧
    (c.list.length : Int) ≤ c.size ∧ (c.cache.length : Int) ≤ c.size := by
  have hwf := WF_reachable h
  have hlen := WF_cache_length hwf
  obtain ⟨h1, h2, h3, h4, h5, h6⟩ := hwf
  refine ⟨hlen.symm, h6, ?_⟩
  omega

/-- Witness for C2 at a concrete reachable state. -/
theorem reachable_size_invariant_witness :
    (Insert ⟨2, [], []⟩ "a" (F64.num 1)).1.list.length =
      (Insert ⟨2, [], []⟩ "a" (F64.num 1)).1.cache.length ∧
    ((Insert ⟨2, [], []⟩ "a" (F64.num 1)).1.list.length : Int) ≤
      (Insert ⟨2, [], []⟩ "a" (F64.num 1)).1.size ∧
    ((Insert ⟨2, [], []⟩ "a" (F64.num 1)).1.cache.length : Int) ≤
      (Insert ⟨2, [], []⟩ "a" (F64.num 1)).1.size :=
  reachable_size_invariant _
    (Reachable.insert _ "a" (F64.num 1) (Reachable.new 2 _ (by decide)))

/-- Claim C3: for a cache built by `New sz`, inserting `sz + 1`
pairwise-distinct keys in order with no intervening `Get` leaves the first
key absent (exactly one entry was evicted, from the back) and all later
keys present. -/
theorem insert_capacity_plus_one_evicts_first (sz : Int) (c0 : LRUCache)
    (hnew : New sz = some c0) (k1 : String) (v1 : F64)
    (rest : List (String × F64))
    (hnd : (((k1, v1) :: rest).map Prod.fst).Nodup)
    (hlen : ((((k1, v1) :: rest).length : Int)) = sz + 1) :
    k1 ∉ (insertAll c0 ((k1, v1) :: rest)).cache ∧
    k1 ∉ listKeys (insertAll c0 ((k1, v1) :: rest)) ∧
    (∀ k ∈ rest.map Prod.fst,
      k ∈ (insertAll c0 ((k1, v1) :: rest)).cache ∧
      k ∈ listKeys (insertAll c0 ((k1, v1) :: rest))) ∧
    ((insertAll c0 ((k1, v1) :: rest)).list.length : Int) = sz := by
  have hsz : 1 ≤ sz := by
    unfold New at hnew
    split at hnew
    · cases hnew
    · rename_i hpos
      omega
  have hc0 : c0 = ⟨sz, [], []⟩ := by
    unfold New at hnew
    split at hnew
    · cases hnew
    · exact (Option.some.inj hnew).symm
  subst hc0
  obtain ⟨hwf, hkeys⟩ := insertAll_empty_keys sz hsz ((k1, v1) :: rest) hnd
  obtain ⟨w1, w2, w3, w4, w5, w6⟩ := hwf
  set c := insertAll (⟨sz, [], []⟩ : LRUCache) ((k1, v1) :: rest) with hc
  have hrl : (rest.map Prod.fst).reverse.length = sz.toNat := by
    simp only [List.length_reverse, List.length_map]
    simp only [List.length_cons] at hlen
    omega
  have hkeys' : listKeys c = (rest.map Prod.fst).reverse := by
    rw [hkeys]
    simp only [List.map_cons, List.reverse_cons]
    rw [List.take_left' hrl]
  have hnd' := hnd
  simp only [List.map_cons, List.nodup_cons] at hnd'
  obtain ⟨hk1notin, _⟩ := hnd'
  have hk1keys : k1 ∉ listKeys c := by
    rw [hkeys']
    simpa using hk1notin
  refine ⟨fun hm => hk1keys (w4 k1 hm), hk1keys, ?_, ?_⟩
  · intro k hk
    have hkk : k ∈ listKeys c := by
      rw [hkeys']
      simpa using hk
    exact ⟨w5 k hkk, hkk⟩
  · have hll : c.list.length = (listKeys c).length := by simp [listKeys]
    rw [hll, hkeys', hrl]
    omega

/-- Witness for C3 at capacity 2 with keys a, b, c. -/
theorem insert_capacity_plus_one_evicts_first_witness :
    "a" ∉ (insertAll ⟨2, [], []⟩
      [("a", F64.num 1), ("b", F64.num 2), ("c", F64.num 3)]).cache ∧
    ((insertAll ⟨2, [], []⟩
      [("a", F64.num 1), ("b", F64.num 2), ("c", F64.num 3)]).list.length : Int) = 2 :=
  ⟨(insert_capacity_plus_one_evicts_first 2 _ (by decide) "a" (F64.num 1)
      [("b", F64.num 2), ("c", F64.num 3)] (by decide) (by decide)).1,
   (insert_capacity_plus_one_evicts_first 2 _ (by decide) "a" (F64.num 1)
      [("b", F64.num 2), ("c", F64.num 3)] (by decide) (by decide)).2.2.2⟩

/-- Claim C4: the concrete capacity-2 scenario.  After inserting a = 1 and
b = 2, `Get "a"` returns the item with value 1 and promotes a to the front;
inserting c = 3 then evicts b and not a; afterwards `Get "b"` reports the
not-found error, `Get "a"` returns 1 and `Get "c"` returns 3. -/
theorem concrete_scenario_capacity_two :
    New 2 = some ⟨2, [], []⟩ ∧
    (Get (Insert (Insert (⟨2, [], []⟩ : LRUCache) "a" (F64.num 1)).1
        "b" (F64.num 2)).1 "a").2.1 = some ⟨"a", F64.num 1⟩ ∧
    (Get (Insert (Insert (⟨2, [], []⟩ : LRUCache) "a" (F64.num 1)).1
        "b" (F64.num 2)).1 "a").2.2 = none ∧
    (Get (Insert (Insert (⟨2, [], []⟩ : LRUCache) "a" (F64.num 1)).1
        "b" (F64.num 2)).1 "a").1.list.head? = some ⟨"a", F64.num 1⟩ ∧
    "b" ∉ (Insert (Get (Insert (Insert (⟨2, [], []⟩ : LRUCache) "a"
        (F64.num 1)).1 "b" (F64.num 2)).1 "a").1 "c" (F64.num 3)).1.cache ∧
    "a" ∈ (Insert (Get (Insert (Insert (⟨2, [], []⟩ : LRUCache) "a"
        (F64.num 1)).1 "b" (F64.num 2)).1 "a").1 "c" (F64.num 3)).1.cache ∧
    (Get (Insert (Get (Insert (Insert (⟨2, [], []⟩ : LRUCache) "a"
        (F64.num 1)).1 "b" (F64.num 2)).1 "a").1 "c" (F64.num 3)).1
      "b").2.2 = some keyNotFoundErr ∧
    (Get (Insert (Get (Insert (Insert (⟨2, [], []⟩ : LRUCache) "a"
        (F64.num 1)).1 "b" (F64.num 2)).1 "a").1 "c" (F64.num 3)).1
      "b").2.1 = none ∧
    (Get (Insert (Get (Insert (Insert (⟨2, [], []⟩ : LRUCache) "a"
        (F64.num 1)).1 "b" (F64.num 2)).1 "a").1 "c" (F64.num 3)).1
      "a").2.1 = some ⟨"a", F64.num 1⟩ ∧
    (Get (Insert (Get (Insert (Insert (⟨2, [], []⟩ : LRUCache) "a"
        (F64.num 1)).1 "b" (F64.num 2)).1 "a").1 "c" (F64.num 3)).1
      "c").2.1 = some ⟨"c", F64.num 3⟩ := by
  decide

/-- Claim C5: inserting an existing key updates its value in place,
promotes the entry to the front, evicts nothing (every other entry stays),
and leaves the cache size unchanged. -/
theorem insert_present_updates_in_place (c : LRUCache) (k : String) (v : F64)
    (hwf : WF c) (hk : k ∈ c.cache) :
    (Insert c k v).2 = none ∧
    (Insert c k v).1.cache = c.cache ∧
    (Insert c k v).1.list.length = c.list.length ∧
    (Insert c k v).1.list.head? = some ⟨k, v⟩ ∧
    ∀ it ∈ c.list, it.key ≠ k → it ∈ (Insert c k v).1.list := by
  have hmem : k ∈ listKeys c := hwf.2.2.2.1 k hk
  obtain ⟨it, hf, hkey⟩ := find?_keyMatch hmem
  have heq : Insert c k v =
      ({ c with list :=
          { key := it.key, value := v } :: c.list.eraseP (keyMatch k) }, none) := by
    simp [Insert, hk, hf]
  have hperm := find?_perm_eraseP hf
  rw [heq]
  refine ⟨rfl, rfl, ?_, ?_, ?_⟩
  · have hpl := hperm.length_eq
    simp only [List.length_cons] at hpl ⊢
    omega
  · simp [hkey]
  · intro it2 hit2 hne
    have hm2 : it2 ∈ c.list.eraseP (keyMatch k) :=
      (List.mem_eraseP_of_neg (by simp [keyMatch, hne])).mpr hit2
    simp [hm2]

/-- Witness for C5 on a concrete two-entry cache. -/
theorem insert_present_updates_in_place_witness :
    (Insert ⟨2, [⟨"a", F64.num 1⟩, ⟨"b", F64.num 2⟩], ["a", "b"]⟩
      "b" (F64.num 9)).2 = none ∧
    (Insert ⟨2, [⟨"a", F64.num 1⟩, ⟨"b", F64.num 2⟩], ["a", "b"]⟩
      "b" (F64.num 9)).1.cache = ["a", "b"] ∧
    (Insert ⟨2, [⟨"a", F64.num 1⟩, ⟨"b", F64.num 2⟩], ["a", "b"]⟩
      "b" (F64.num 9)).1.list.length = 2 ∧
    (Insert ⟨2, [⟨"a", F64.num 1⟩, ⟨"b", F64.num 2⟩], ["a", "b"]⟩
      "b" (F64.num 9)).1.list.head? = some ⟨"b", F64.num 9⟩ :=
  let h := insert_present_updates_in_place
    ⟨2, [⟨"a", F64.num 1⟩, ⟨"b", F64.num 2⟩], ["a", "b"]⟩
    "b" (F64.num 9) (by decide) (by decide)
  ⟨h.1, h.2.1, h.2.2.1, h.2.2.2.1⟩

/-- Claim C6: `New` fails fatally (modelled as `none`) exactly when the
capacity is nonpositive; for a positive capacity it returns an empty cache
whose capacity is the given value, and no operation ever changes the
capacity afterwards. -/
theorem new_capacity_contract :
    (∀ sz : Int, New sz = none ↔ sz ≤ 0) ∧
    (∀ (sz : Int) (c : LRUCache), New sz = some c →
      c.size = sz ∧ c.list = [] ∧ c.cache = []) ∧
    (∀ (c : LRUCache) (k : String) (v : F64), (Insert c k v).1.size = c.size) ∧
    (∀ (c : LRUCache) (k : String), (Get c k).1.size = c.size) ∧
    (∀ (c : LRUCache) (k : String) (loader : Option LoaderFunc),
      (FastRateLookup c k loader).1.size = c.size) := by
  refine ⟨?_, ?_, Insert_size, Get_size, FastRateLookup_size⟩
  · intro sz
    unfold New
    split
    · rename_i h
      exact iff_of_true rfl h
    · rename_i h
      exact iff_of_false (by simp) h
  · intro sz c h
    unfold New at h
    split at h
    · cases h
    · cases h
      exact ⟨rfl, rfl, rfl⟩

/-- Witness for C6 at concrete capacities 0 and 2. -/
theorem new_capacity_contract_witness :
    New 0 = none ∧ (⟨2, [], []⟩ : LRUCache).size = 2 :=
  ⟨(new_capacity_contract.1 0).mpr (by decide),
   (new_capacity_contract.2.1 2 ⟨2, [], []⟩ (by decide)).1⟩

/-- Claim C7: on a miss, if the supplied loader fails, `FastRateLookup`
returns the dedicated loader-failure error — distinct from the not-found
error — and leaves the cache state unchanged (no entry is inserted). -/
theorem fastRateLookup_loader_failure (c : LRUCache) (k : String)
    (f : LoaderFunc) (v : F64) (e : GoError)
    (hc : c.cache.contains k = false) (hf : f k = (v, some e)) :
    FastRateLookup c k (some f) = (c, F64.nan, some loaderFailedErr) ∧
    loaderFailedErr ≠ keyNotFoundErr := by
  have hm : k ∉ c.cache := not_mem_of_contains_eq_false hc
  have hget : Get c k = (c, none, some keyNotFoundErr) := by
    simp [Get, hm]
  refine ⟨?_, by decide⟩
  simp [FastRateLookup, hget, hf]

/-- Witness for C7 with a concrete failing loader on an empty cache. -/
theorem fastRateLookup_loader_failure_witness :
    FastRateLookup ⟨1, [], []⟩ "a"
        (some fun _ => (F64.num 0, some ⟨"boom"⟩)) =
      (⟨1, [], []⟩, F64.nan, some loaderFailedErr) ∧
    loaderFailedErr ≠ keyNotFoundErr :=
  fastRateLookup_loader_failure ⟨1, [], []⟩ "a"
    (fun _ => (F64.num 0, some ⟨"boom"⟩)) (F64.num 0) ⟨"boom"⟩
    (by decide) rfl

/-- Claim C8: when the key is present, `FastRateLookup` returns the cached
value with a nil error, and its result does not depend on the loader
argument at all (the loader is never invoked, nil or not). -/
theorem fastRateLookup_hit (c : LRUCache) (k : String) (it : CacheItem)
    (hc : c.cache.contains k = true)
    (hf : c.list.find? (keyMatch k) = some it) (loader : Option LoaderFunc) :
    FastRateLookup c k loader = ((Get c k).1, it.value, none) ∧
    FastRateLookup c k loader = FastRateLookup c k none := by
  have hm : k ∈ c.cache := mem_of_contains hc
  have hget : Get c k =
      ({ c with list := it :: c.list.eraseP (keyMatch k) }, some it, none) := by
    simp [Get, hm, hf]
  constructor
  · simp [FastRateLookup, hget]
  · simp [FastRateLookup, hget]

/-- Witness for C8 on a concrete one-entry cache with a non-nil loader. -/
theorem fastRateLookup_hit_witness :
    FastRateLookup ⟨1, [⟨"a", F64.num 7⟩], ["a"]⟩ "a"
        (some fun _ => (F64.num 9, none)) =
      ((Get ⟨1, [⟨"a", F64.num 7⟩], ["a"]⟩ "a").1, F64.num 7, none) ∧
    FastRateLookup ⟨1, [⟨"a", F64.num 7⟩], ["a"]⟩ "a"
        (some fun _ => (F64.num 9, none)) =
      FastRateLookup ⟨1, [⟨"a", F64.num 7⟩], ["a"]⟩ "a" none :=
  fastRateLookup_hit ⟨1, [⟨"a", F64.num 7⟩], ["a"]⟩ "a" ⟨"a", F64.num 7⟩
    (by decide) (by decide) (some fun _ => (F64.num 9, none))

/-- Claim C10: whenever `FastRateLookup` returns a non-nil error, the
float64 value it returns alongside is NaN. -/
theorem fastRateLookup_error_returns_nan (c : LRUCache) (k : String)
    (loader : Option LoaderFunc) (e : GoError)
    (h : (FastRateLookup c k loader).2.2 = some e) :
    (FastRateLookup c k loader).2.1 = F64.nan := by
  cases h2 : (Get c k).2.2 with
  | none => simp [FastRateLookup, h2] at h
  | some err =>
    cases loader with
    | none => simp [FastRateLookup, h2]
    | some f =>
      cases h3 : (f k).2 with
      | some e2 => simp [FastRateLookup, h2, h3]
      | none => simp [FastRateLookup, h2, h3] at h

/-- Witness for C10: a miss with a nil loader returns NaN. -/
theorem fastRateLookup_error_returns_nan_witness :
    (FastRateLookup ⟨1, [], []⟩ "a" none).2.1 = F64.nan :=
  fastRateLookup_error_returns_nan ⟨1, [], []⟩ "a" none keyNotFoundErr
    (by decide)

end LruCache
